import Mathlib

/-!
Shallow embedding of `src/cargo/core/resolver/dep_cache.rs`: the registry
query cache (`RegistryQueryer::query`), the replacement rewriter, the
feature expansion engine (`Requirements`), the dep-info cache
(`RegistryQueryer::build_deps`) and `reset_pending`.

Interned strings are modelled as `String`, `Rc`-shared vectors as plain
lists, `HashMap`s as association lists (first match wins, insert updates in
place), and the asynchronous registry as a pure function from dependencies
to answers.  `Poll` is the two-state readiness marker of the source.
-/

namespace DepCache

/-- Model of `PackageId`: name, version and source identifier. -/
structure PackageId where
  name : String
  version : Nat
  sourceId : Nat
deriving DecidableEq

/-- Model of `PackageIdSpec`: a pattern over `PackageId` (used by replacement
rules); `none` components match anything. -/
structure PackageIdSpec where
  name : String
  version : Option Nat
  sourceId : Option Nat
deriving DecidableEq

/-- Model of `Dependency`.  `reqId` stands for the version requirement (an
opaque component of the equality used by the registry cache key);
`transitive` is `is_transitive()` (i.e. not a dev-dependency). -/
structure Dependency where
  packageName : String
  nameInToml : String
  sourceId : Nat
  reqId : Nat
  optional : Bool
  transitive : Bool
  features : List String
deriving DecidableEq

/-- Model of `FeatureValue`: one entry in a feature's definition list. -/
inductive FeatureValue where
  | feature (name : String)
  | dep (depName : String)
  | depFeature (depName : String) (depFeature : String) (weak : Bool)
deriving DecidableEq

/-- Model of `Summary`: a concrete package version with its declared
dependencies and feature map (`features()` is a map from feature name to its
definition list). -/
structure Summary where
  pid : PackageId
  dependencies : List Dependency
  features : List (String × List FeatureValue)
  rustVersion : Option Nat
deriving DecidableEq

/-- Model of `RequestedFeatures`. -/
inductive RequestedFeatures where
  | cliFeatures (features : List FeatureValue) (allFeatures : Bool) (usesDefaultFeatures : Bool)
  | depFeatures (features : List String) (usesDefaultFeatures : Bool)
deriving DecidableEq

/-- Model of `ResolveOpts`. -/
structure ResolveOpts where
  devDeps : Bool
  features : RequestedFeatures
deriving DecidableEq

/-- Association-list lookup, first match wins (models `HashMap::get`). -/
def lookupA {α β : Type} [DecidableEq α] : List (α × β) → α → Option β
  | [], _ => none
  | (a, b) :: rest, key => if a = key then some b else lookupA rest key

/-- Association-list insert: update in place if the key is present, append
otherwise (models `HashMap::insert`). -/
def insertA {α β : Type} [DecidableEq α] : List (α × β) → α → β → List (α × β)
  | [], key, val => [(key, val)]
  | (a, b) :: rest, key, val =>
    if a = key then (key, val) :: rest else (a, b) :: insertA rest key val

/-- Models `HashMap::contains_key`. -/
def containsKeyA {α β : Type} [DecidableEq α] (m : List (α × β)) (k : α) : Bool :=
  (lookupA m k).isSome

/-- Model of `Poll<Rc<Vec<Summary>>>`, the value type of the registry cache. -/
inductive PollV where
  | pending
  | ready (summaries : List Summary)
deriving DecidableEq

/-- Models `Poll::is_ready`. -/
def PollV.isReady : PollV → Bool
  | .pending => false
  | .ready _ => true

/-- The answer of one registry query (`Registry::query` / `query_vec`):
ready with a list of matching summaries, pending, or a registry error
(errors are identified by an opaque code). -/
inductive RegAnswer where
  | pending
  | ready (summaries : List Summary)
  | err (code : Nat)
deriving DecidableEq

/-- The errors `query` can produce, keeping the data the formatted messages
mention in the source. -/
inductive QueryErr where
  | registry (code : Nat)
  | noMatching (spec : PackageIdSpec) (replaceDep : Dependency)
  | multipleMatch (spec : PackageIdSpec) (pids : List PackageId)
  | overlapping (spec1 : PackageIdSpec) (spec2 : PackageIdSpec) (pid : PackageId)
deriving DecidableEq

/-- Model of `VersionOrdering`. -/
inductive VersionOrdering where
  | minimumVersionsFirst
  | maximumVersionsFirst
deriving DecidableEq

/-- Model of `DepInfo`: a dependency, its candidate list, and the features
requested of it. -/
abbrev DepInfo := Dependency × List Summary × List String

instance instDecEqDepInfo : DecidableEq DepInfo := inferInstance

instance instDecEqDepInfoList : DecidableEq (List DepInfo) := inferInstance

instance instDecEqSummaryCacheVal : DecidableEq ((List String × List DepInfo) × Bool) :=
  inferInstance

/-- The configuration of a `RegistryQueryer`: the replacement rules, the
`minimal_versions` flag, `max_rust_version`, and the external
`VersionPreferences::sort_summaries` policy. -/
structure Config where
  replacements : List (PackageIdSpec × Dependency)
  minimalVersions : Bool
  maxRustVersion : Option Nat
  sortSummaries : List Summary → VersionOrdering → Bool → List Summary

/-- The mutable state of a `RegistryQueryer`: the registry cache, the
summary (dep-info) cache and `used_replacements`. -/
structure QState where
  registryCache : List ((Dependency × Bool) × PollV)
  summaryCache :
    List ((Option PackageId × Summary × ResolveOpts) × ((List String × List DepInfo) × Bool))
  usedReplacements : List (PackageId × Summary)
deriving DecidableEq

/-- Result of `query`: `Poll<CargoResult<Rc<Vec<Summary>>>>`, plus a
distinguished outcome for a failed `assert_eq!`. -/
inductive QueryResult where
  | pending
  | ready (summaries : List Summary)
  | err (e : QueryErr)
  | panic
deriving DecidableEq

/-- `Option<PartialVersion>` comparison as Rust orders options: `None` is
below every `Some`. -/
def optLe : Option Nat → Option Nat → Bool
  | none, _ => true
  | some _, none => false
  | some a, some b => Nat.ble a b

/-- The filter applied by the sink in `query`: keep a summary unless its
`rust_version()` exceeds the configured `max_rust_version`. -/
def rustOk (cfg : Config) (s : Summary) : Bool :=
  cfg.maxRustVersion.isNone || optLe s.rustVersion cfg.maxRustVersion

/-- Models `PackageIdSpec::matches`. -/
def specMatches (spec : PackageIdSpec) (p : PackageId) : Bool :=
  spec.name == p.name
    && (match spec.version with | none => true | some v => v == p.version)
    && (match spec.sourceId with | none => true | some sid => sid == p.sourceId)

/-- The `potential_matches` iterator of `query`: the replacement rules whose
spec matches the summary's package id, in rule order. -/
def replacementMatches (cfg : Config) (s : Summary) : List (PackageIdSpec × Dependency) :=
  cfg.replacements.filter (fun rule => specMatches rule.1 s.pid)

/-- Outcome of processing one candidate summary in `query`'s replacement
loop: continue with the next summary, or an early return. -/
inductive StepOut where
  | cont
  | pend
  | fail (e : QueryErr)
  | boom
deriving DecidableEq

/-- Outcome of the whole replacement loop. -/
inductive LoopOut where
  | ok
  | pend
  | fail (e : QueryErr)
  | boom
deriving DecidableEq

/-- One iteration of the `for summary in ret.iter()` loop of `query`
(dep_cache.rs lines 128-208): find the matching replacement rules, query the
registry for the first rule's dependency, detect the zero-match,
multiple-match and overlapping-specification errors, check the version/name
assertions, and record the replacement in `used_replacements` when the
source ids differ.  On a pending replacement query, `Pending` is inserted
into the registry cache under the (shadowed) replacement dependency `dep`. -/
def processSummary (cfg : Config) (reg : Dependency → RegAnswer) (fm : Bool)
    (summary : Summary) (st : QState) : QState × StepOut :=
  match replacementMatches cfg summary with
  | [] => (st, .cont)
  | (spec, rdep) :: more =>
    match reg rdep with
    | .err code => (st, .fail (.registry code))
    | .pending =>
      ({ st with registryCache := insertA st.registryCache (rdep, fm) PollV.pending }, .pend)
    | .ready rsums =>
      match rsums with
      | [] => (st, .fail (.noMatching spec rdep))
      | r :: rest =>
        if rest.isEmpty = false then
          (st, .fail (.multipleMatch spec (r.pid :: rest.map (fun s2 => s2.pid))))
        else if (r.pid.version == summary.pid.version && r.pid.name == summary.pid.name) = false then
          (st, .boom)
        else
          match more with
          | (spec2, _) :: _ => (st, .fail (.overlapping spec spec2 summary.pid))
          | [] =>
            if r.pid.sourceId == summary.pid.sourceId then (st, .cont)
            else
              ({ st with usedReplacements := insertA st.usedReplacements summary.pid r }, .cont)

/-- The replacement loop of `query`, over the accumulated candidate list. -/
def processLoop (cfg : Config) (reg : Dependency → RegAnswer) (fm : Bool) :
    List Summary → QState → QState × LoopOut
  | [], st => (st, .ok)
  | s :: rest, st =>
    match processSummary cfg reg fm s st with
    | (st1, .cont) => processLoop cfg reg fm rest st1
    | (st1, .pend) => (st1, .pend)
    | (st1, .fail e) => (st1, .fail e)
    | (st1, .boom) => (st1, .boom)

/-- Model of `RegistryQueryer::query` (dep_cache.rs lines 107-226): cache
lookup, registry query with the rust-version filter, pending caching, the
replacement loop, version-preference sorting, and caching of the ready
result. -/
def query (cfg : Config) (reg : Dependency → RegAnswer) (st : QState)
    (dep : Dependency) (fm : Bool) : QState × QueryResult :=
  match lookupA st.registryCache (dep, fm) with
  | some PollV.pending => (st, .pending)
  | some (PollV.ready l) => (st, .ready l)
  | none =>
    match reg dep with
    | .err code => (st, .err (.registry code))
    | .pending =>
      ({ st with registryCache := insertA st.registryCache (dep, fm) PollV.pending }, .pending)
    | .ready raw =>
      match processLoop cfg reg fm (raw.filter (rustOk cfg)) st with
      | (st1, .pend) => (st1, .pending)
      | (st1, .fail e) => (st1, .err e)
      | (st1, .boom) => (st1, .panic)
      | (st1, .ok) =>
        let ordering :=
          if fm || cfg.minimalVersions then VersionOrdering.minimumVersionsFirst
          else VersionOrdering.maximumVersionsFirst
        let out := cfg.sortSummaries (raw.filter (rustOk cfg)) ordering fm
        ({ st1 with registryCache := insertA st1.registryCache (dep, fm) (PollV.ready out) },
         .ready out)

/-- Model of `RegistryQueryer::reset_pending`: evict the registry-cache
entries that are not ready and the summary-cache entries whose `all_ready`
flag is false, returning whether nothing was evicted. -/
def resetPending (st : QState) : QState × Bool :=
  (({ st with
      registryCache := st.registryCache.filter (fun kv => kv.2.isReady),
      summaryCache := st.summaryCache.filter (fun kv => kv.2.2) }),
   st.registryCache.all (fun kv => kv.2.isReady) && st.summaryCache.all (fun kv => kv.2.2))

/-- Model of `RegistryQueryer::used_replacement_for`. -/
def usedReplacementFor (st : QState) (p : PackageId) : Option (PackageId × PackageId) :=
  (lookupA st.usedReplacements p).map (fun r => (p, r.pid))

/-- Model of `RegistryQueryer::replacement_summary`. -/
def replacementSummary (st : QState) (p : PackageId) : Option Summary :=
  lookupA st.usedReplacements p

/-- Model of `RequirementError`. -/
inductive ReqError where
  | missingFeature (feat : String)
  | missingDependency (depName : String)
  | cycle (feat : String)
deriving DecidableEq

/-- Model of `ConflictReason` (the variants used here). -/
inductive ConflictReason where
  | missingFeatures (name : String)
  | nonImplicitDependencyAsFeature (feat : String)
  | requiredDependencyAsFeature (feat : String)
deriving DecidableEq

/-- Payloads of the fatal `ActivateError`s this module formats. -/
inductive FatalMsg where
  | noFeature (pid : PackageId) (feat : String)
  | nonImplicitFeature (pid : PackageId) (feat : String)
  | requiredAsFeature (pid : PackageId) (feat : String)
  | noDependencyNamed (pid : PackageId) (depName : String)
  | cyclicFeature (feat : String)
  | depQueryFailed (depName : String) (pid : PackageId) (e : QueryErr)
deriving DecidableEq

/-- Model of `ActivateError`. -/
inductive ActivateError where
  | fatal (m : FatalMsg)
  | conflict (parent : PackageId) (reason : ConflictReason)
deriving DecidableEq

/-- Model of `Requirements`: the dependency-name to enabled-features map and
the set of enabled features (insertion list, first occurrence only). -/
structure Reqs where
  deps : List (String × List String)
  features : List String
deriving DecidableEq

/-- `BTreeSet<InternedString>` insert: keep the value list strictly sorted. -/
def sortedInsertStr (x : String) : List String → List String
  | [] => [x]
  | y :: l => if x < y then x :: y :: l else if x = y then y :: l else y :: sortedInsertStr x l

/-- `self.deps.entry(package).or_default().insert(feat)`. -/
def addDepFeat : List (String × List String) → String → String → List (String × List String)
  | [], n, f => [(n, [f])]
  | (a, l) :: rest, n, f =>
    if a = n then (a, sortedInsertStr f l) :: rest else (a, l) :: addDepFeat rest n f

/-- `self.deps.entry(pkg).or_default()` (`require_dependency`). -/
def ensureDep : List (String × List String) → String → List (String × List String)
  | [], n => [(n, [])]
  | (a, l) :: rest, n => if a = n then (a, l) :: rest else (a, l) :: ensureDep rest n

/-- The work items of the requirement expansion.  `tfeat f` is a pending
`require_feature(f)` call; `tchk f fv` is one iteration of the loop in
`require_feature` over `f`'s definition (the self-cycle check followed by
`require_value(fv)`); `tval fv` is a pending `require_value(fv)` call;
`tput n df` is the trailing `deps.entry(n).or_default().insert(df)` of
`require_dep_feature`. -/
inductive Task where
  | tfeat (f : String)
  | tchk (f : String) (fv : FeatureValue)
  | tval (fv : FeatureValue)
  | tput (n : String) (df : String)
deriving DecidableEq

deriving instance DecidableEq for Except

/-- Membership test on the insertion list modelling the `HashSet` of seen
features. -/
def containsStr : List String → String → Bool
  | [], _ => false
  | x :: l, y => if x = y then true else containsStr l y

/-- Result of running the expansion task list with a step budget. -/
inductive RunOut where
  | gasOut
  | done (fuelLeft : Nat) (res : Except ReqError Reqs)
deriving DecidableEq

/-- The mutually recursive `require_feature` / `require_value` /
`require_dep_feature` of the source, defunctionalized into a task list
processed depth-first (pushed tasks run before the remaining ones, exactly
in the source's call order).  `fuel` bounds the number of steps; it is a
termination device only — `runNoGas` below shows that the canonical budget
used by `expandTasks` never runs out. -/
def run (s : Summary) : Nat → Reqs → List Task → RunOut
  | fuel, r, [] => .done fuel (.ok r)
  | 0, _, _ :: _ => .gasOut
  | fuel + 1, r, t :: ts =>
    match t with
    | .tfeat f =>
      if containsStr r.features f then run s fuel r ts
      else
        match lookupA s.features f with
        | none => .done fuel (.error (.missingFeature f))
        | some fvs =>
          run s fuel { r with features := f :: r.features } (fvs.map (Task.tchk f) ++ ts)
    | .tchk f fv =>
      if fv == FeatureValue.feature f then .done fuel (.error (.cycle f))
      else run s fuel r (.tval fv :: ts)
    | .tval fv =>
      match fv with
      | .feature g => run s fuel r (.tfeat g :: ts)
      | .dep n => run s fuel { r with deps := ensureDep r.deps n } ts
      | .depFeature n df wk =>
        if !wk
            && (s.dependencies.any fun d => d.nameInToml == n && d.optional)
            && containsKeyA s.features n then
          run s fuel r (.tfeat n :: .tput n df :: ts)
        else run s fuel r (.tput n df :: ts)
    | .tput n df => run s fuel { r with deps := addDepFeat r.deps n df } ts

/-- Step-budget cost of one task. -/
def taskCost : Task → Nat
  | .tfeat _ => 1
  | .tchk _ _ => 4
  | .tval _ => 3
  | .tput _ _ => 1

/-- Step-budget cost of a task list. -/
def weight : List Task → Nat
  | [] => 0
  | t :: ts => taskCost t + weight ts

/-- Budget still stored in the unvisited part of the feature map. -/
def potAux (seen : List String) : List (String × List FeatureValue) → Nat
  | [] => 0
  | kv :: rest => (if containsStr seen kv.1 then 0 else 4 * kv.2.length + 1) + potAux seen rest

/-- Budget stored in the features not yet recorded in `r.features`. -/
def potential (s : Summary) (r : Reqs) : Nat :=
  potAux r.features s.features

/-- Marking one more feature as seen never increases the stored budget. -/
def potAux_cons_le (f : String) (seen : List String) :
    ∀ m : List (String × List FeatureValue), potAux (f :: seen) m ≤ potAux seen m := by
  intro m
  induction m with
  | nil => simp [potAux]
  | cons kv rest ih =>
    simp only [potAux]
    have h1 : (if containsStr (f :: seen) kv.1 then 0 else 4 * kv.2.length + 1)
        ≤ (if containsStr seen kv.1 then 0 else 4 * kv.2.length + 1) := by
      simp only [containsStr]
      by_cases hf : f = kv.1
      · simp [hf]
      · simp [hf]
    omega

/-- Visiting an unseen feature that is present in the map frees at least its
own entry cost from the stored budget. -/
def potAux_visit (f : String) (fvs : List FeatureValue) (seen : List String)
    (hc : containsStr seen f = false) :
    ∀ m : List (String × List FeatureValue), lookupA m f = some fvs →
      potAux (f :: seen) m + (4 * fvs.length + 1) ≤ potAux seen m := by
  intro m
  induction m with
  | nil => intro h; simp [lookupA] at h
  | cons kv rest ih =>
    intro h
    simp only [potAux]
    by_cases hk : kv.1 = f
    · have hv : kv.2 = fvs := by
        obtain ⟨k1, k2⟩ := kv
        simp only [lookupA] at h
        simp only at hk
        rw [if_pos hk] at h
        simpa using h
      have hseen : containsStr seen kv.1 = false := by rw [hk]; exact hc
      have hnew : containsStr (f :: seen) kv.1 = true := by
        simp only [containsStr]
        rw [if_pos hk.symm]
      have := potAux_cons_le f seen rest
      rw [hseen, hnew, hv]
      simp
      omega
    · have h2 : lookupA rest f = some fvs := by
        obtain ⟨k1, k2⟩ := kv
        simp only [lookupA] at h
        simp only at hk
        rw [if_neg hk] at h
        exact h
      have hsame : containsStr (f :: seen) kv.1 = containsStr seen kv.1 := by
        simp only [containsStr]
        rw [if_neg (fun h3 => hk h3.symm)]
      rw [hsame]
      have := ih h2
      omega

/-- `weight` is additive over append. -/
def weight_append (ts1 ts2 : List Task) : weight (ts1 ++ ts2) = weight ts1 + weight ts2 := by
  induction ts1 with
  | nil => simp [weight]
  | cons t ts ih =>
    rw [List.cons_append]
    rw [show weight (t :: (ts ++ ts2)) = taskCost t + weight (ts ++ ts2) from rfl]
    rw [show weight (t :: ts) = taskCost t + weight ts from rfl]
    rw [ih]
    omega

/-- The weight of the checked-value tasks pushed when a feature's definition
list is expanded. -/
def weight_map_tchk (f : String) (l : List FeatureValue) (ts : List Task) :
    weight (l.map (Task.tchk f) ++ ts) = 4 * l.length + weight ts := by
  induction l with
  | nil => simp [weight]
  | cons v vs ih =>
    rw [List.map_cons, List.cons_append]
    rw [show weight (Task.tchk f v :: (vs.map (Task.tchk f) ++ ts))
        = 4 + weight (vs.map (Task.tchk f) ++ ts) from rfl]
    rw [ih, List.length_cons]
    omega

/-- With a budget of at least `potential + weight`, the expansion never runs
out of steps. -/
def runNoGas (s : Summary) :
    ∀ fuel : Nat, ∀ r ts, potential s r + weight ts ≤ fuel →
      run s fuel r ts ≠ RunOut.gasOut := by
  intro fuel
  induction fuel with
  | zero =>
    intro r ts h
    cases ts with
    | nil => simp [run]
    | cons t ts =>
      exfalso
      have : 1 ≤ taskCost t := by cases t <;> simp [taskCost]
      simp only [weight] at h
      omega
  | succ fuel ih =>
    intro r ts h
    cases ts with
    | nil => simp [run]
    | cons t ts =>
      cases t with
      | tfeat f =>
        simp only [run]
        by_cases hc : containsStr r.features f = true
        · rw [if_pos hc]
          apply ih
          simp only [weight, taskCost] at h ⊢
          omega
        · rw [if_neg hc]
          cases hl : lookupA s.features f with
          | none => simp
          | some fvs =>
            apply ih
            have hvisit := potAux_visit f fvs r.features (by simpa using hc) s.features hl
            rw [weight_map_tchk]
            simp only [weight, taskCost, potential] at h ⊢
            omega
      | tchk f fv =>
        simp only [run]
        by_cases he : (fv == FeatureValue.feature f) = true
        · rw [if_pos he]; simp
        · rw [if_neg he]
          apply ih
          simp only [weight, taskCost, potential] at h ⊢
          omega
      | tval fv =>
        cases fv with
        | feature g =>
          simp only [run]
          apply ih
          simp only [weight, taskCost, potential] at h ⊢
          omega
        | dep n =>
          simp only [run]
          apply ih
          simp only [weight, taskCost, potential, potAux] at h ⊢
          omega
        | depFeature n df wk =>
          simp only [run]
          by_cases hcond : (!wk && (s.dependencies.any fun d => d.nameInToml == n && d.optional)
              && containsKeyA s.features n) = true
          · rw [if_pos hcond]
            apply ih
            simp only [weight, taskCost, potential] at h ⊢
            omega
          · rw [if_neg hcond]
            apply ih
            simp only [weight, taskCost, potential] at h ⊢
            omega
      | tput n df =>
        simp only [run]
        apply ih
        simp only [weight, taskCost, potential, potAux] at h ⊢
        omega

/-- Run a task list to completion with the canonical (provably sufficient)
step budget. -/
def expandTasks (s : Summary) (r : Reqs) (ts : List Task) : Except ReqError Reqs :=
  match h : run s (potential s r + weight ts) r ts with
  | .done _ x => x
  | .gasOut => absurd h (runNoGas s (potential s r + weight ts) r ts (Nat.le_refl _))

/-- Model of `Requirements::require_feature`. -/
def requireFeature (s : Summary) (r : Reqs) (f : String) : Except ReqError Reqs :=
  expandTasks s r [Task.tfeat f]

/-- Model of `Requirements::require_value`. -/
def requireValue (s : Summary) (r : Reqs) (fv : FeatureValue) : Except ReqError Reqs :=
  expandTasks s r [Task.tval fv]

/-- `require_feature` over a list of feature names, stopping at the first
error (the `for` loops of `build_requirements`). -/
def foldFeatures (s : Summary) : Reqs → List String → Except ReqError Reqs
  | r, [] => .ok r
  | r, f :: fs =>
    match requireFeature s r f with
    | .error e => .error e
    | .ok r1 => foldFeatures s r1 fs

/-- `require_value` over a list of feature values, stopping at the first
error. -/
def foldValues (s : Summary) : Reqs → List FeatureValue → Except ReqError Reqs
  | r, [] => .ok r
  | r, fv :: fvs =>
    match requireValue s r fv with
    | .error e => .error e
    | .ok r1 => foldValues s r1 fvs

/-- The `handle_default` closure of `build_requirements`. -/
def handleDefault (s : Summary) (useDefault : Bool) (r : Reqs) : Except ReqError Reqs :=
  if useDefault && containsKeyA s.features "default" then requireFeature s r "default"
  else .ok r

/-- Model of `build_requirements` before error translation (every error site
converts uniformly with `into_activate_error`, applied by the caller). -/
def buildRequirementsE (s : Summary) (opts : ResolveOpts) : Except ReqError Reqs :=
  match opts.features with
  | .cliFeatures fvs allF useDefault =>
    match (if allF then foldFeatures s ⟨[], []⟩ (s.features.map Prod.fst) else .ok ⟨[], []⟩) with
    | .error e => .error e
    | .ok r1 =>
      match foldValues s r1 fvs with
      | .error e => .error e
      | .ok r2 => handleDefault s useDefault r2
  | .depFeatures feats useDefault =>
    match foldFeatures s ⟨[], []⟩ feats with
    | .error e => .error e
    | .ok r1 => handleDefault s useDefault r1

/-- Model of `RequirementError::into_activate_error` (dep_cache.rs lines
518-589). -/
def intoActivateError (e : ReqError) (parent : Option PackageId) (s : Summary) : ActivateError :=
  match e with
  | .missingFeature feat =>
    let deps := s.dependencies.filter (fun d => d.nameInToml == feat)
    if deps.isEmpty then
      match parent with
      | none => .fatal (.noFeature s.pid feat)
      | some p => .conflict p (.missingFeatures feat)
    else if deps.any (fun d => d.optional) then
      match parent with
      | none => .fatal (.nonImplicitFeature s.pid feat)
      | some p => .conflict p (.nonImplicitDependencyAsFeature feat)
    else
      match parent with
      | none => .fatal (.requiredAsFeature s.pid feat)
      | some p => .conflict p (.requiredDependencyAsFeature feat)
  | .missingDependency depName =>
    match parent with
    | none => .fatal (.noDependencyNamed s.pid depName)
    | some p => .conflict p (.missingFeatures depName)
  | .cycle feat => .fatal (.cyclicFeature feat)

/-- Model of `build_requirements`: expansion with errors translated through
`into_activate_error`. -/
def buildRequirements (parent : Option PackageId) (s : Summary) (opts : ResolveOpts) :
    Except ActivateError Reqs :=
  match buildRequirementsE s opts with
  | .error e => .error (intoActivateError e parent s)
  | .ok r => .ok r

/-- `BTreeSet::extend` of `dep.features()` over the base feature set. -/
def extendFeats (base : List String) (extra : List String) : List String :=
  extra.foldl (fun acc f => sortedInsertStr f acc) base

/-- Model of `resolve_features` (dep_cache.rs lines 299-347): filter out
dev-dependencies unless requested, skip optional dependencies that no
requirement mentions, attach to each kept dependency the requested features
extended with the dependency's own `features()`, and at the root reject
requirement keys that name no kept dependency. -/
def resolveFeatures (parent : Option PackageId) (s : Summary) (opts : ResolveOpts) :
    Except ActivateError (List String × List (Dependency × List String)) :=
  let deps := s.dependencies.filter (fun d => d.transitive || opts.devDeps)
  match buildRequirements parent s opts with
  | .error e => .error e
  | .ok reqs =>
    let kept := deps.filter (fun d => !(d.optional && (lookupA reqs.deps d.nameInToml).isNone))
    let validDepNames := kept.map (fun d => d.nameInToml)
    let ret := kept.map (fun d =>
      (d, extendFeats ((lookupA reqs.deps d.nameInToml).getD []) d.features))
    if parent.isNone then
      match reqs.deps.find? (fun kv => !(validDepNames.contains kv.1)) with
      | some kv => .error (intoActivateError (.missingDependency kv.1) parent s)
      | none => .ok (reqs.features, ret)
    else .ok (reqs.features, ret)

/-- Outcome of collecting candidate lists for the expanded dependencies. -/
inductive CollectOut where
  | ok (deps : List DepInfo)
  | fail (depName : String) (e : QueryErr)
  | boom
deriving DecidableEq

/-- The query loop of `build_deps`: for each expanded dependency, `query` its
candidates; a Pending answer clears `all_ready` and omits the entry; an
error stops the collection (`collect::<CargoResult<_>>` short-circuits). -/
def collectDeps (cfg : Config) (reg : Dependency → RegAnswer) (fm : Bool) :
    QState → List (Dependency × List String) → QState × Bool × CollectOut
  | st, [] => (st, true, .ok [])
  | st, (dep, feats) :: rest =>
    match query cfg reg st dep fm with
    | (st1, .ready l) =>
      match collectDeps cfg reg fm st1 rest with
      | (st2, ar, .ok out) => (st2, ar, .ok ((dep, l, feats) :: out))
      | other => other
    | (st1, .pending) =>
      match collectDeps cfg reg fm st1 rest with
      | (st2, _, res) => (st2, false, res)
    | (st1, .err e) => (st1, true, .fail dep.packageName e)
    | (st1, .panic) => (st1, true, .boom)

/-- The sort key of `build_deps`: candidate-list length. -/
def lenLe (a b : DepInfo) : Prop :=
  a.2.1.length ≤ b.2.1.length

instance instDecLenLe : DecidableRel lenLe :=
  fun a b => Nat.decLe a.2.1.length b.2.1.length

instance instTotalLenLe : IsTotal DepInfo lenLe :=
  ⟨fun a b => Nat.le_total a.2.1.length b.2.1.length⟩

instance instTransLenLe : IsTrans DepInfo lenLe :=
  ⟨fun _ _ _ => Nat.le_trans⟩

/-- `deps.sort_by_key(|(_, a, _)| a.len())`: a stable sort by candidate-list
length (insertion sort is stable, and a stable sorted permutation is
unique, so this models Rust's stable `sort_by_key` exactly). -/
def sortDeps (l : List DepInfo) : List DepInfo :=
  List.insertionSort lenLe l

/-- The dependency list of a fresh `build_deps` computation before the final
sort, in the order the feature expander emitted it (pending entries
omitted). -/
def emittedDeps (cfg : Config) (reg : Dependency → RegAnswer) (st : QState)
    (parent : Option PackageId) (candidate : Summary) (opts : ResolveOpts) (fm : Bool) :
    List DepInfo :=
  match resolveFeatures parent candidate opts with
  | .ok (_, ds) =>
    match collectDeps cfg reg fm st ds with
    | (_, _, .ok l) => l
    | _ => []
  | .error _ => []

/-- Result of `build_deps`. -/
inductive BuildOut where
  | ok (out : List String × List DepInfo)
  | err (e : ActivateError)
  | panicked
deriving DecidableEq

/-- Model of `RegistryQueryer::build_deps` (dep_cache.rs lines 232-294):
summary-cache lookup keyed by `(parent, candidate, opts)` (the
`first_minimal_version` flag is deliberately not part of the key), feature
expansion, candidate collection, the stable sort by candidate-list length,
and insertion of the shared result together with its `all_ready` flag. -/
def buildDeps (cfg : Config) (reg : Dependency → RegAnswer) (st : QState)
    (parent : Option PackageId) (candidate : Summary) (opts : ResolveOpts) (fm : Bool) :
    QState × BuildOut :=
  match lookupA st.summaryCache (parent, candidate, opts) with
  | some (out, _) => (st, .ok out)
  | none =>
    match resolveFeatures parent candidate opts with
    | .error e => (st, .err e)
    | .ok (usedFeatures, ds) =>
      match collectDeps cfg reg fm st ds with
      | (st1, _, .fail n e) => (st1, .err (.fatal (.depQueryFailed n candidate.pid e)))
      | (st1, _, .boom) => (st1, .panicked)
      | (st1, allReady, .ok collected) =>
        ({ st1 with
            summaryCache := insertA st1.summaryCache (parent, candidate, opts)
              ((usedFeatures, sortDeps collected), allReady) },
         .ok (usedFeatures, sortDeps collected))

/-! Concrete fixtures: a small universe of packages, dependencies,
replacement rules and registries used to evaluate the model on closed
inputs. -/

/-- Identity sorting policy (a legitimate `VersionPreferences`). -/
def sortId : List Summary → VersionOrdering → Bool → List Summary := fun l _ _ => l

def pidFoo : PackageId := ⟨"foo", 1, 0⟩

def sFoo : Summary := ⟨pidFoo, [], [], none⟩

def depFoo : Dependency := ⟨"foo", "foo", 0, 0, false, true, []⟩

def rdepW : Dependency := ⟨"foo", "foo", 1, 99, false, true, []⟩

def rdepW2 : Dependency := ⟨"foo", "foo", 2, 98, false, true, []⟩

def specW : PackageIdSpec := ⟨"foo", some 1, none⟩

def specW2 : PackageIdSpec := ⟨"foo", none, some 0⟩

def st0 : QState := ⟨[], [], []⟩

def cfg0 : Config := ⟨[], false, none, sortId⟩

def cfgW : Config := ⟨[(specW, rdepW)], false, none, sortId⟩

def cfgO : Config := ⟨[(specW, rdepW), (specW2, rdepW2)], false, none, sortId⟩

def regW : Dependency → RegAnswer := fun d =>
  if d = depFoo then .ready [sFoo] else if d = rdepW then .pending else .ready []

/-- Replacement summaries for `foo 1`: same name and version, different
source ids. -/
def rFoo1 : Summary := ⟨⟨"foo", 1, 1⟩, [], [], none⟩

def rFoo2 : Summary := ⟨⟨"foo", 1, 2⟩, [], [], none⟩

def regZ : Dependency → RegAnswer := fun d =>
  if d = depFoo then .ready [sFoo] else .ready []

def regM : Dependency → RegAnswer := fun d =>
  if d = depFoo then .ready [sFoo] else if d = rdepW then .ready [rFoo1, rFoo2] else .ready []

def regO : Dependency → RegAnswer := fun d =>
  if d = depFoo then .ready [sFoo] else if d = rdepW then .ready [rFoo1] else .ready []

def pidBar : PackageId := ⟨"bar", 1, 0⟩

def sBar : Summary := ⟨pidBar, [], [], none⟩

def rBar : Summary := ⟨⟨"bar", 1, 1⟩, [], [], none⟩

def specBar : PackageIdSpec := ⟨"bar", none, none⟩

def rdepBar : Dependency := ⟨"bar", "bar", 1, 97, false, true, []⟩

def depBoth : Dependency := ⟨"both", "both", 0, 5, false, true, []⟩

def cfgT : Config := ⟨[(specBar, rdepBar), (specW, rdepW)], false, none, sortId⟩

def regT : Dependency → RegAnswer := fun d =>
  if d = depBoth then .ready [sBar, sFoo]
  else if d = rdepBar then .ready [rBar]
  else if d = rdepW then .ready [rFoo1, rFoo2]
  else .ready []

/-- The state after `query` has processed `sBar` and recorded its
replacement. -/
def st1T : QState := ⟨[], [], [(pidBar, rBar)]⟩

def depA : Dependency := ⟨"a", "a", 0, 1, false, true, []⟩

def depB : Dependency := ⟨"b", "b", 0, 2, false, true, []⟩

def sA1 : Summary := ⟨⟨"a", 1, 0⟩, [], [], none⟩

def sA2 : Summary := ⟨⟨"a", 2, 0⟩, [], [], none⟩

def sB1 : Summary := ⟨⟨"b", 1, 0⟩, [], [], none⟩

def candC : Summary := ⟨⟨"c", 1, 0⟩, [depA, depB], [], none⟩

def optsC : ResolveOpts := ⟨false, .cliFeatures [] false false⟩

def regC : Dependency → RegAnswer := fun d =>
  if d = depA then .ready [sA1, sA2] else if d = depB then .ready [sB1] else .ready []

/-- A state whose summary cache already holds an entry for
`(none, candC, optsC)`. -/
def outP : List String × List DepInfo := ([], [])

def stP : QState := ⟨[], [((none, candC, optsC), (outP, true))], []⟩

/-- A state whose registry cache holds a pending entry. -/
def stW : QState := ⟨[((depFoo, false), PollV.pending)], [], []⟩

def pidPar : PackageId := ⟨"par", 1, 0⟩

/-- A summary with an optional dependency named `x` (and no feature `x`). -/
def depOptX : Dependency := ⟨"x", "x", 0, 3, true, true, []⟩

def depReqX : Dependency := ⟨"x", "x", 0, 4, false, true, []⟩

def sOpt : Summary := ⟨⟨"s", 1, 0⟩, [depOptX], [], none⟩

def sReq : Summary := ⟨⟨"s2", 1, 0⟩, [depReqX], [], none⟩

def sNone : Summary := ⟨⟨"s3", 1, 0⟩, [], [], none⟩

/-- A summary whose feature `f` contains a weak dep-feature of the optional
dependency `x`. -/
def depX : Dependency := ⟨"x", "x", 0, 6, true, true, []⟩

def sWeak : Summary := ⟨⟨"a", 1, 0⟩, [depX], [("f", [.depFeature "x" "fx" true])], none⟩

def optsWeak : ResolveOpts := ⟨false, .cliFeatures [FeatureValue.feature "f"] false false⟩

/-- A summary whose feature `f` lists a missing feature `g` before its own
self-reference. -/
def sSelf : Summary :=
  ⟨⟨"a", 1, 0⟩, [], [("f", [FeatureValue.feature "g", FeatureValue.feature "f"])], none⟩

def optsSelf : ResolveOpts := ⟨false, .depFeatures ["f"] false⟩

/-- A summary whose feature `lp` is a pure self-loop. -/
def sLoop : Summary := ⟨⟨"a", 1, 0⟩, [], [("lp", [FeatureValue.feature "lp"])], none⟩

/-- A summary whose features `p` and `q` form a two-cycle. -/
def sCyc : Summary :=
  ⟨⟨"a", 1, 0⟩, [], [("p", [FeatureValue.feature "q"]), ("q", [FeatureValue.feature "p"])], none⟩

/-! Helper lemmas about the association-list maps. -/

theorem lookupA_insertA_self {α β : Type} [DecidableEq α] (m : List (α × β)) (k : α) (v : β) :
    lookupA (insertA m k v) k = some v := by
  induction m with
  | nil => simp [lookupA, insertA]
  | cons kv rest ih =>
    obtain ⟨a, b⟩ := kv
    by_cases h : a = k
    · simp [insertA, lookupA, h]
    · simp [insertA, lookupA, h, ih]

theorem lookupA_insertA_ne {α β : Type} [DecidableEq α] (m : List (α × β)) (k k2 : α) (v : β)
    (h : k2 ≠ k) : lookupA (insertA m k v) k2 = lookupA m k2 := by
  induction m with
  | nil =>
    simp only [insertA, lookupA]
    rw [if_neg (fun h2 => h h2.symm)]
  | cons kv rest ih =>
    obtain ⟨a, b⟩ := kv
    simp only [insertA]
    by_cases ha : a = k
    · rw [if_pos ha]
      subst ha
      simp only [lookupA]
      rw [if_neg (fun h2 => h h2.symm), if_neg (fun h2 => h h2.symm)]
    · rw [if_neg ha]
      simp only [lookupA]
      by_cases ha2 : a = k2
      · rw [if_pos ha2, if_pos ha2]
      · rw [if_neg ha2, if_neg ha2]
        exact ih

theorem lookupA_mem {α β : Type} [DecidableEq α] (m : List (α × β)) (k : α) (v : β)
    (h : lookupA m k = some v) : (k, v) ∈ m := by
  induction m with
  | nil => simp [lookupA] at h
  | cons kv rest ih =>
    obtain ⟨a, b⟩ := kv
    simp only [lookupA] at h
    by_cases ha : a = k
    · rw [if_pos ha] at h
      subst ha
      injection h with h
      subst h
      exact List.mem_cons_self _ _
    · rw [if_neg ha] at h
      exact List.mem_cons_of_mem _ (ih h)

/-! Helper lemmas about the replacement loop of `query`. -/

theorem processSummary_fail_state (cfg : Config) (reg : Dependency → RegAnswer) (fm : Bool)
    (s : Summary) (st : QState) (e : QueryErr) :
    (processSummary cfg reg fm s st).2 = StepOut.fail e →
      (processSummary cfg reg fm s st).1 = st := by
  unfold processSummary
  split
  · intro _; rfl
  · split
    · intro _; rfl
    · intro h; simp at h
    · split
      · intro _; rfl
      · split
        · intro _; rfl
        · split
          · intro h; simp at h
          · split
            · intro _; rfl
            · split
              · intro h; simp at h
              · intro h; simp at h

theorem processSummary_cont_rc (cfg : Config) (reg : Dependency → RegAnswer) (fm : Bool)
    (s : Summary) (st : QState) :
    (processSummary cfg reg fm s st).2 = StepOut.cont →
      ((processSummary cfg reg fm s st).1).registryCache = st.registryCache := by
  unfold processSummary
  split
  · intro _; rfl
  · split
    · intro h; simp at h
    · intro h; simp at h
    · split
      · intro h; simp at h
      · split
        · intro h; simp at h
        · split
          · intro h; simp at h
          · split
            · intro h; simp at h
            · split
              · intro _; rfl
              · intro _; rfl

theorem processLoop_cons_eq (cfg : Config) (reg : Dependency → RegAnswer) (fm : Bool)
    (s : Summary) (l : List Summary) (st : QState) :
    processLoop cfg reg fm (s :: l) st =
      (match processSummary cfg reg fm s st with
       | (st1, StepOut.cont) => processLoop cfg reg fm l st1
       | (st1, StepOut.pend) => (st1, LoopOut.pend)
       | (st1, StepOut.fail e) => (st1, LoopOut.fail e)
       | (st1, StepOut.boom) => (st1, LoopOut.boom)) := rfl

theorem processLoop_append_ok (cfg : Config) (reg : Dependency → RegAnswer) (fm : Bool) :
    ∀ (pre : List Summary) (st st1 : QState),
      processLoop cfg reg fm pre st = (st1, LoopOut.ok) →
      ∀ rest, processLoop cfg reg fm (pre ++ rest) st = processLoop cfg reg fm rest st1 := by
  intro pre
  induction pre with
  | nil =>
    intro st st1 h rest
    simp only [processLoop] at h
    injection h with h1 _
    subst h1
    rw [List.nil_append]
  | cons s pre ih =>
    intro st st1 h rest
    rw [List.cons_append, processLoop_cons_eq]
    rw [processLoop_cons_eq] at h
    rcases hps : processSummary cfg reg fm s st with ⟨st2, out⟩
    rw [hps] at h
    cases out with
    | cont => exact ih st2 st1 h rest
    | pend => exact absurd h (by simp)
    | fail e => exact absurd h (by simp)
    | boom => exact absurd h (by simp)

theorem processLoop_ok_rc (cfg : Config) (reg : Dependency → RegAnswer) (fm : Bool) :
    ∀ (l : List Summary) (st st1 : QState),
      processLoop cfg reg fm l st = (st1, LoopOut.ok) →
      st1.registryCache = st.registryCache := by
  intro l
  induction l with
  | nil =>
    intro st st1 h
    simp only [processLoop] at h
    injection h with h1 _
    rw [h1]
  | cons s rest ih =>
    intro st st1 h
    rw [processLoop_cons_eq] at h
    rcases hps : processSummary cfg reg fm s st with ⟨st2, out⟩
    rw [hps] at h
    cases out with
    | cont =>
      have h2 := processSummary_cont_rc cfg reg fm s st (by rw [hps])
      rw [hps] at h2
      rw [ih st2 st1 h]
      exact h2
    | pend => exact absurd h (by simp)
    | fail e => exact absurd h (by simp)
    | boom => exact absurd h (by simp)

/-! Helper lemmas about the caches after successful calls. -/

theorem query_ready_cached (cfg : Config) (reg : Dependency → RegAnswer) (st : QState)
    (dep : Dependency) (fm : Bool) (st1 : QState) (l : List Summary)
    (h : query cfg reg st dep fm = (st1, QueryResult.ready l)) :
    lookupA st1.registryCache (dep, fm) = some (PollV.ready l) := by
  unfold query at h
  split at h
  · exact absurd h (by simp)
  · rename_i l0 heq
    injection h with h1 h2
    injection h2 with h2
    subst h1
    subst h2
    exact heq
  · split at h
    · exact absurd h (by simp)
    · exact absurd h (by simp)
    · split at h
      · exact absurd h (by simp)
      · exact absurd h (by simp)
      · exact absurd h (by simp)
      · rename_i raw st2 hloop
        simp only at h
        injection h with h1 h2
        injection h2 with h2
        subst h1
        subst h2
        exact lookupA_insertA_self _ _ _

theorem buildDeps_ok_cached (cfg : Config) (reg : Dependency → RegAnswer) (st : QState)
    (parent : Option PackageId) (cand : Summary) (opts : ResolveOpts) (fm : Bool)
    (st1 : QState) (out : List String × List DepInfo)
    (h : buildDeps cfg reg st parent cand opts fm = (st1, BuildOut.ok out)) :
    ∃ b, lookupA st1.summaryCache (parent, cand, opts) = some (out, b) := by
  unfold buildDeps at h
  split at h
  · rename_i out0 b heq
    injection h with h1 h2
    injection h2 with h2
    subst h1
    subst h2
    exact ⟨b, heq⟩
  · split at h
    · exact absurd h (by simp)
    · split at h
      · exact absurd h (by simp)
      · exact absurd h (by simp)
      · rename_i uf ds st2 allReady collected hcoll
        injection h with h1 h2
        injection h2 with h2
        subst h1
        subst h2
        exact ⟨allReady, lookupA_insertA_self _ _ _⟩

/-! Helper lemmas about the expansion engine `run`. -/

theorem run_add (s : Summary) (k : Nat) :
    ∀ (fuel : Nat) (r : Reqs) (ts : List Task) (g : Nat) (x : Except ReqError Reqs),
      run s fuel r ts = RunOut.done g x → run s (fuel + k) r ts = RunOut.done (g + k) x := by
  intro fuel
  induction fuel with
  | zero =>
    intro r ts g x h
    cases ts with
    | nil =>
      simp only [run] at h
      injection h with h1 h2
      subst h1
      subst h2
      simp [run]
    | cons t ts => simp [run] at h
  | succ fuel ih =>
    intro r ts g x h
    cases ts with
    | nil =>
      simp only [run] at h
      injection h with h1 h2
      subst h1
      subst h2
      simp [run]
    | cons t ts =>
      rw [Nat.add_right_comm]
      cases t with
      | tfeat f =>
        simp only [run] at h ⊢
        by_cases hc : containsStr r.features f = true
        · rw [if_pos hc] at h ⊢
          exact ih r ts g x h
        · rw [if_neg hc] at h ⊢
          cases hl : lookupA s.features f with
          | none =>
            rw [hl] at h
            dsimp only at h ⊢
            injection h with h1 h2
            subst h1
            subst h2
            rfl
          | some fvs =>
            rw [hl] at h
            dsimp only at h ⊢
            exact ih _ _ g x h
      | tchk f fv =>
        simp only [run] at h ⊢
        by_cases he : (fv == FeatureValue.feature f) = true
        · rw [if_pos he] at h ⊢
          injection h with h1 h2
          subst h1
          subst h2
          rfl
        · rw [if_neg he] at h ⊢
          exact ih _ _ g x h
      | tval fv =>
        cases fv with
        | feature g2 =>
          simp only [run] at h ⊢
          exact ih _ _ g x h
        | dep n =>
          simp only [run] at h ⊢
          exact ih _ _ g x h
        | depFeature n df wk =>
          simp only [run] at h ⊢
          by_cases hcond : (!wk && (s.dependencies.any fun d => d.nameInToml == n && d.optional)
              && containsKeyA s.features n) = true
          · rw [if_pos hcond] at h ⊢
            exact ih _ _ g x h
          · rw [if_neg hcond] at h ⊢
            exact ih _ _ g x h
      | tput n df =>
        simp only [run] at h ⊢
        exact ih _ _ g x h

theorem run_done_unique (s : Summary) (r : Reqs) (ts : List Task) (f1 f2 g1 g2 : Nat)
    (x1 x2 : Except ReqError Reqs)
    (h1 : run s f1 r ts = RunOut.done g1 x1) (h2 : run s f2 r ts = RunOut.done g2 x2) :
    x1 = x2 := by
  rcases Nat.le_total f1 f2 with h | h
  · obtain ⟨k, hk⟩ := Nat.le.dest h
    have h3 := run_add s k f1 r ts g1 x1 h1
    rw [hk] at h3
    rw [h3] at h2
    injection h2 with _ h2
  · obtain ⟨k, hk⟩ := Nat.le.dest h
    have h3 := run_add s k f2 r ts g2 x2 h2
    rw [hk] at h3
    rw [h3] at h1
    injection h1 with _ h1
    exact h1.symm

theorem run_append_ok (s : Summary) (ts2 : List Task) :
    ∀ (fuel : Nat) (r : Reqs) (ts1 : List Task) (g : Nat) (r1 : Reqs),
      run s fuel r ts1 = RunOut.done g (Except.ok r1) →
      run s fuel r (ts1 ++ ts2) = run s g r1 ts2 := by
  intro fuel
  induction fuel with
  | zero =>
    intro r ts1 g r1 h
    cases ts1 with
    | nil =>
      simp only [run] at h
      injection h with h1 h2
      injection h2 with h2
      subst h1
      subst h2
      rw [List.nil_append]
    | cons t ts1 => simp [run] at h
  | succ fuel ih =>
    intro r ts1 g r1 h
    cases ts1 with
    | nil =>
      simp only [run] at h
      injection h with h1 h2
      injection h2 with h2
      subst h1
      subst h2
      rw [List.nil_append]
    | cons t ts1 =>
      rw [List.cons_append]
      cases t with
      | tfeat f =>
        simp only [run] at h ⊢
        by_cases hc : containsStr r.features f = true
        · rw [if_pos hc] at h ⊢
          exact ih r ts1 g r1 h
        · rw [if_neg hc] at h ⊢
          cases hl : lookupA s.features f with
          | none =>
            rw [hl] at h
            dsimp only at h
            exact absurd h (by simp)
          | some fvs =>
            rw [hl] at h
            dsimp only at h ⊢
            have h3 := ih _ _ g r1 h
            rw [List.append_assoc] at h3
            exact h3
      | tchk f fv =>
        simp only [run] at h ⊢
        by_cases he : (fv == FeatureValue.feature f) = true
        · rw [if_pos he] at h
          exact absurd h (by simp)
        · rw [if_neg he] at h ⊢
          have h3 := ih _ _ g r1 h
          rw [List.cons_append] at h3
          exact h3
      | tval fv =>
        cases fv with
        | feature g2 =>
          simp only [run] at h ⊢
          have h3 := ih _ _ g r1 h
          rw [List.cons_append] at h3
          exact h3
        | dep n =>
          simp only [run] at h ⊢
          exact ih _ _ g r1 h
        | depFeature n df wk =>
          simp only [run] at h ⊢
          by_cases hcond : (!wk && (s.dependencies.any fun d => d.nameInToml == n && d.optional)
              && containsKeyA s.features n) = true
          · rw [if_pos hcond] at h ⊢
            have h3 := ih _ _ g r1 h
            rw [List.cons_append, List.cons_append] at h3
            exact h3
          · rw [if_neg hcond] at h ⊢
            have h3 := ih _ _ g r1 h
            rw [List.cons_append] at h3
            exact h3
      | tput n df =>
        simp only [run] at h ⊢
        exact ih _ _ g r1 h

theorem run_append_gas (s : Summary) (ts2 : List Task) :
    ∀ (fuel : Nat) (r : Reqs) (ts1 : List Task),
      run s fuel r ts1 = RunOut.gasOut →
      run s fuel r (ts1 ++ ts2) = RunOut.gasOut := by
  intro fuel
  induction fuel with
  | zero =>
    intro r ts1 h
    cases ts1 with
    | nil => simp [run] at h
    | cons t ts1 =>
      rw [List.cons_append]
      rfl
  | succ fuel ih =>
    intro r ts1 h
    cases ts1 with
    | nil => simp [run] at h
    | cons t ts1 =>
      rw [List.cons_append]
      cases t with
      | tfeat f =>
        simp only [run] at h ⊢
        by_cases hc : containsStr r.features f = true
        · rw [if_pos hc] at h ⊢
          exact ih r ts1 h
        · rw [if_neg hc] at h ⊢
          cases hl : lookupA s.features f with
          | none =>
            rw [hl] at h
            dsimp only at h
            exact absurd h (by simp)
          | some fvs =>
            rw [hl] at h
            dsimp only at h ⊢
            have h3 := ih _ _ h
            rw [List.append_assoc] at h3
            exact h3
      | tchk f fv =>
        simp only [run] at h ⊢
        by_cases he : (fv == FeatureValue.feature f) = true
        · rw [if_pos he] at h
          exact absurd h (by simp)
        · rw [if_neg he] at h ⊢
          have h3 := ih _ _ h
          rw [List.cons_append] at h3
          exact h3
      | tval fv =>
        cases fv with
        | feature g2 =>
          simp only [run] at h ⊢
          have h3 := ih _ _ h
          rw [List.cons_append] at h3
          exact h3
        | dep n =>
          simp only [run] at h ⊢
          exact ih _ _ h
        | depFeature n df wk =>
          simp only [run] at h ⊢
          by_cases hcond : (!wk && (s.dependencies.any fun d => d.nameInToml == n && d.optional)
              && containsKeyA s.features n) = true
          · rw [if_pos hcond] at h ⊢
            have h3 := ih _ _ h
            rw [List.cons_append, List.cons_append] at h3
            exact h3
          · rw [if_neg hcond] at h ⊢
            have h3 := ih _ _ h
            rw [List.cons_append] at h3
            exact h3
      | tput n df =>
        simp only [run] at h ⊢
        exact ih _ _ h

theorem run_selfchk (s : Summary) (f : String) :
    ∀ (fuel : Nat) (r : Reqs) (ts : List Task),
      Task.tchk f (FeatureValue.feature f) ∈ ts →
      ∀ (g : Nat) (r1 : Reqs), run s fuel r ts ≠ RunOut.done g (Except.ok r1) := by
  intro fuel
  induction fuel with
  | zero =>
    intro r ts hmem g r1
    cases ts with
    | nil => simp at hmem
    | cons t ts => simp [run]
  | succ fuel ih =>
    intro r ts hmem g r1
    cases ts with
    | nil => simp at hmem
    | cons t ts =>
      rcases List.mem_cons.mp hmem with hhd | htl
      · subst hhd
        simp only [run]
        rw [if_pos (by simp)]
        simp
      · cases t with
        | tfeat f2 =>
          simp only [run]
          by_cases hc : containsStr r.features f2 = true
          · rw [if_pos hc]
            exact ih r ts htl g r1
          · rw [if_neg hc]
            cases hl : lookupA s.features f2 with
            | none => simp
            | some fvs =>
              exact ih _ _ (List.mem_append_right _ htl) g r1
        | tchk f2 fv =>
          simp only [run]
          by_cases he : (fv == FeatureValue.feature f2) = true
          · rw [if_pos he]
            simp
          · rw [if_neg he]
            exact ih r _ (List.mem_cons_of_mem _ htl) g r1
        | tval fv =>
          cases fv with
          | feature g2 =>
            simp only [run]
            exact ih _ _ (List.mem_cons_of_mem _ htl) g r1
          | dep n =>
            simp only [run]
            exact ih _ _ htl g r1
          | depFeature n df wk =>
            simp only [run]
            by_cases hcond : (!wk && (s.dependencies.any fun d => d.nameInToml == n && d.optional)
                && containsKeyA s.features n) = true
            · rw [if_pos hcond]
              exact ih _ _ (List.mem_cons_of_mem _ (List.mem_cons_of_mem _ htl)) g r1
            · rw [if_neg hcond]
              exact ih _ _ (List.mem_cons_of_mem _ htl) g r1
        | tput n df =>
          simp only [run]
          exact ih _ _ htl g r1

theorem expandTasks_done (s : Summary) (r : Reqs) (ts : List Task) (g : Nat)
    (x : Except ReqError Reqs)
    (h : run s (potential s r + weight ts) r ts = RunOut.done g x) :
    expandTasks s r ts = x := by
  unfold expandTasks
  split
  · rename_i g2 x2 heq
    rw [heq] at h
    injection h with _ h2
  · rename_i heq
    rw [heq] at h
    simp at h

theorem run_of_expandTasks (s : Summary) (r : Reqs) (ts : List Task) :
    ∃ g, run s (potential s r + weight ts) r ts = RunOut.done g (expandTasks s r ts) := by
  unfold expandTasks
  split
  · rename_i g x heq
    exact ⟨g, heq⟩
  · rename_i heq
    exact absurd heq (runNoGas s _ r ts (Nat.le_refl _))

/-- If every feature value in the map is a `Feature` reference to a distinct
existing feature, every task list of feature references runs to a successful
completion: longer cycles terminate because each feature is recorded in the
seen set on first visit. -/
theorem run_good (s : Summary)
    (hall : ∀ kv ∈ s.features, ∀ fv ∈ kv.2,
      ∃ g, fv = FeatureValue.feature g ∧ g ≠ kv.1 ∧ containsKeyA s.features g = true) :
    ∀ (fuel : Nat) (r : Reqs) (ts : List Task),
      (∀ t ∈ ts,
        (∃ g, t = Task.tfeat g ∧ containsKeyA s.features g = true)
        ∨ (∃ k g, t = Task.tchk k (FeatureValue.feature g) ∧ g ≠ k
            ∧ containsKeyA s.features g = true)
        ∨ (∃ g, t = Task.tval (FeatureValue.feature g) ∧ containsKeyA s.features g = true)) →
      potential s r + weight ts ≤ fuel →
      ∃ g2 r2, run s fuel r ts = RunOut.done g2 (Except.ok r2) := by
  intro fuel
  induction fuel with
  | zero =>
    intro r ts hgood hle
    cases ts with
    | nil => exact ⟨0, r, rfl⟩
    | cons t ts =>
      exfalso
      have h1 : 1 ≤ taskCost t := by cases t <;> simp [taskCost]
      simp only [weight] at hle
      omega
  | succ fuel ih =>
    intro r ts hgood hle
    cases ts with
    | nil => exact ⟨fuel + 1, r, rfl⟩
    | cons t ts =>
      rcases hgood t (List.mem_cons_self t ts) with ⟨g, htf, hkey⟩ | ⟨k, g, htc, hne, hkey⟩
        | ⟨g, htv, hkey⟩
      · subst htf
        simp only [run]
        by_cases hc : containsStr r.features g = true
        · rw [if_pos hc]
          refine ih r ts (fun t2 ht2 => hgood t2 (List.mem_cons_of_mem _ ht2)) ?_
          simp only [weight, taskCost] at hle
          omega
        · rw [if_neg hc]
          cases hl : lookupA s.features g with
          | none =>
            exfalso
            simp [containsKeyA, hl] at hkey
          | some fvs =>
            refine ih _ _ ?_ ?_
            · intro t2 ht2
              rcases List.mem_append.mp ht2 with hmap | ht2
              · obtain ⟨fv, hfv, hfv2⟩ := List.mem_map.mp hmap
                obtain ⟨g2, hg2, hne2, hkey2⟩ := hall (g, fvs) (lookupA_mem _ _ _ hl) fv hfv
                right
                left
                refine ⟨g, g2, ?_, hne2, hkey2⟩
                rw [← hfv2, hg2]
              · exact hgood t2 (List.mem_cons_of_mem _ ht2)
            · rw [weight_map_tchk]
              have hvisit := potAux_visit g fvs r.features (by simpa using hc) s.features hl
              simp only [weight, taskCost, potential] at hle ⊢
              omega
      · subst htc
        simp only [run]
        rw [if_neg (by simp [hne])]
        refine ih r (Task.tval (FeatureValue.feature g) :: ts) ?_ ?_
        · intro t2 ht2
          rcases List.mem_cons.mp ht2 with hhd | ht2
          · right
            right
            exact ⟨g, hhd, hkey⟩
          · exact hgood t2 (List.mem_cons_of_mem _ ht2)
        · simp only [weight, taskCost] at hle ⊢
          omega
      · subst htv
        simp only [run]
        refine ih r (Task.tfeat g :: ts) ?_ ?_
        · intro t2 ht2
          rcases List.mem_cons.mp ht2 with hhd | ht2
          · left
            exact ⟨g, hhd, hkey⟩
          · exact hgood t2 (List.mem_cons_of_mem _ ht2)
        · simp only [weight, taskCost] at hle ⊢
          omega

/-! Helper lemmas about the stable sort of `build_deps`. -/

theorem filter_orderedInsert_neg {α : Type} (r : α → α → Prop) [DecidableRel r]
    (p : α → Bool) (x : α) (hx : p x = false) :
    ∀ l : List α, (List.orderedInsert r x l).filter p = l.filter p := by
  intro l
  induction l with
  | nil => simp [hx]
  | cons y l ih =>
    simp only [List.orderedInsert]
    by_cases hr : r x y
    · rw [if_pos hr]
      simp [List.filter_cons, hx]
    · rw [if_neg hr]
      by_cases hpy : p y = true
      · simp [List.filter_cons, hpy, ih]
      · simp only [Bool.not_eq_true] at hpy
        simp [List.filter_cons, hpy, ih]

theorem filter_orderedInsert_pos {α : Type} (r : α → α → Prop) [DecidableRel r]
    (p : α → Bool) (x : α) (hx : p x = true) (hlow : ∀ y, ¬ r x y → p y = false) :
    ∀ l : List α, (List.orderedInsert r x l).filter p = x :: l.filter p := by
  intro l
  induction l with
  | nil => simp [hx]
  | cons y l ih =>
    simp only [List.orderedInsert]
    by_cases hr : r x y
    · rw [if_pos hr]
      simp [List.filter_cons, hx]
    · rw [if_neg hr]
      have hpy := hlow y hr
      simp [List.filter_cons, hpy, ih]

theorem filter_insertionSort_len (n : Nat) :
    ∀ l : List DepInfo,
      (List.insertionSort lenLe l).filter (fun d => d.2.1.length == n)
        = l.filter (fun d => d.2.1.length == n) := by
  intro l
  induction l with
  | nil => simp
  | cons x l ih =>
    simp only [List.insertionSort]
    by_cases hx : ((x.2.1.length == n) : Bool) = true
    · have hxn : x.2.1.length = n := by simpa using hx
      rw [filter_orderedInsert_pos lenLe _ x hx ?_]
      · simp [List.filter_cons, hx, ih]
      · intro y hy
        have hlt : y.2.1.length < x.2.1.length := Nat.lt_of_not_le hy
        have : y.2.1.length ≠ n := by omega
        simpa using this
    · simp only [Bool.not_eq_true] at hx
      rw [filter_orderedInsert_neg lenLe _ x hx]
      simp [List.filter_cons, hx, ih]

/-! Claim theorems. -/

/-- Claim C5: `reset_pending()` evicts exactly the registry-cache entries
whose value is Pending and the dep-info-cache entries whose `all_ready` flag
is false, and returns true iff no such entry existed; consequently after any
`reset_pending()` call no cached registry entry is Pending and no cached
dep-info entry has `all_ready = false`. -/
theorem claim_c5 (st : QState) :
    ((resetPending st).2 = true ↔
      ((∀ kv ∈ st.registryCache, kv.2.isReady = true) ∧ (∀ kv ∈ st.summaryCache, kv.2.2 = true)))
    ∧ (∀ kv, kv ∈ (resetPending st).1.registryCache ↔
        (kv ∈ st.registryCache ∧ kv.2.isReady = true))
    ∧ (∀ kv, kv ∈ (resetPending st).1.summaryCache ↔
        (kv ∈ st.summaryCache ∧ kv.2.2 = true))
    ∧ (∀ kv ∈ (resetPending st).1.registryCache, kv.2 ≠ PollV.pending)
    ∧ (∀ kv ∈ (resetPending st).1.summaryCache, kv.2.2 = true) := by
  refine ⟨?_, ?_, ?_, ?_, ?_⟩
  · simp [resetPending, List.all_eq_true, Bool.and_eq_true]
  · intro kv
    simp [resetPending, List.mem_filter]
  · intro kv
    simp [resetPending, List.mem_filter]
  · intro kv hkv
    simp only [resetPending, List.mem_filter] at hkv
    intro h2
    rw [h2] at hkv
    simp [PollV.isReady] at hkv
  · intro kv hkv
    simp only [resetPending, List.mem_filter] at hkv
    exact hkv.2

/-- Witness for C5 at a state holding one pending registry entry: the entry
is evicted. -/
theorem claim_c5_witness :
    ((depFoo, false), PollV.pending) ∈ (resetPending stW).1.registryCache ↔
      (((depFoo, false), PollV.pending) ∈ stW.registryCache
        ∧ (PollV.pending).isReady = true) :=
  (claim_c5 stW).2.1 ((depFoo, false), PollV.pending)

/-- Claim C7: classification of `MissingFeature(feat)` errors by
`into_activate_error`.  With a parent, an optional dependency of that name
yields a `NonImplicitDependencyAsFeature` conflict, only required
dependencies of that name yield a `RequiredDependencyAsFeature` conflict,
and no dependency of that name yields a `MissingFeatures` conflict; without
a parent each case is a distinct fatal error. -/
theorem claim_c7 (s : Summary) (feat : String) (p : PackageId) :
    ((s.dependencies.filter (fun d => d.nameInToml == feat)).isEmpty = false →
      (s.dependencies.filter (fun d => d.nameInToml == feat)).any (fun d => d.optional) = true →
      intoActivateError (.missingFeature feat) (some p) s
          = .conflict p (.nonImplicitDependencyAsFeature feat)
        ∧ intoActivateError (.missingFeature feat) none s
          = .fatal (.nonImplicitFeature s.pid feat))
    ∧ ((s.dependencies.filter (fun d => d.nameInToml == feat)).isEmpty = false →
      (s.dependencies.filter (fun d => d.nameInToml == feat)).any (fun d => d.optional) = false →
      intoActivateError (.missingFeature feat) (some p) s
          = .conflict p (.requiredDependencyAsFeature feat)
        ∧ intoActivateError (.missingFeature feat) none s
          = .fatal (.requiredAsFeature s.pid feat))
    ∧ ((s.dependencies.filter (fun d => d.nameInToml == feat)).isEmpty = true →
      intoActivateError (.missingFeature feat) (some p) s
          = .conflict p (.missingFeatures feat)
        ∧ intoActivateError (.missingFeature feat) none s
          = .fatal (.noFeature s.pid feat)) := by
  refine ⟨?_, ?_, ?_⟩
  · intro h1 h2
    constructor <;> simp [intoActivateError, h1, h2]
  · intro h1 h2
    constructor <;> simp [intoActivateError, h1, h2]
  · intro h1
    constructor <;> simp [intoActivateError, h1]

/-- Claim C1 (amended): when the registry query issued for a matching
replacement rule's dependency returns Pending, `query` stores Pending in
the registry cache at the key `(replace_dep, first_minimal)` — the matched
rule's (shadowing) replacement dependency, not the queried dependency —
and returns Pending; when `replace_dep ≠ dep`, the queried key itself
remains uncached. -/
theorem claim_c1 (cfg : Config) (reg : Dependency → RegAnswer) (st : QState)
    (dep : Dependency) (fm : Bool) (raw pre post : List Summary) (s2 : Summary)
    (spec : PackageIdSpec) (rdep : Dependency) (more : List (PackageIdSpec × Dependency))
    (st1 : QState)
    (hmiss : lookupA st.registryCache (dep, fm) = none)
    (hreg : reg dep = RegAnswer.ready raw)
    (hsplit : raw.filter (rustOk cfg) = pre ++ s2 :: post)
    (hpre : processLoop cfg reg fm pre st = (st1, LoopOut.ok))
    (hmatch : replacementMatches cfg s2 = (spec, rdep) :: more)
    (hp : reg rdep = RegAnswer.pending) :
    query cfg reg st dep fm
      = ({ st1 with registryCache := insertA st1.registryCache (rdep, fm) PollV.pending },
         QueryResult.pending)
    ∧ lookupA ((query cfg reg st dep fm).1).registryCache (rdep, fm) = some PollV.pending
    ∧ (rdep ≠ dep →
        lookupA ((query cfg reg st dep fm).1).registryCache (dep, fm) = none) := by
  have hq : query cfg reg st dep fm
      = ({ st1 with registryCache := insertA st1.registryCache (rdep, fm) PollV.pending },
         QueryResult.pending) := by
    simp only [query, hmiss, hreg, hsplit]
    rw [processLoop_append_ok cfg reg fm pre st st1 hpre]
    rw [processLoop_cons_eq]
    simp only [processSummary, hmatch, hp]
  refine ⟨hq, ?_, ?_⟩
  · rw [hq]
    exact lookupA_insertA_self _ _ _
  · intro hne
    rw [hq]
    have hkey : ((dep, fm) : Dependency × Bool) ≠ (rdep, fm) := by
      intro h2
      injection h2 with ha _
      exact hne ha.symm
    show lookupA (insertA st1.registryCache (rdep, fm) PollV.pending) (dep, fm) = none
    rw [lookupA_insertA_ne _ _ _ _ hkey]
    rw [processLoop_ok_rc cfg reg fm pre st st1 hpre]
    exact hmiss

/-- Counterexample for C1 as frozen: with a replacement rule matching `foo`
whose replacement dependency query is Pending, `query(depFoo, false)`
returns Pending but stores nothing under the queried key
`(depFoo, false)`; Pending lands under `(rdepW, false)` instead. -/
theorem claim_c1_counterexample :
    (query cfgW regW st0 depFoo false).2 = QueryResult.pending
    ∧ lookupA ((query cfgW regW st0 depFoo false).1).registryCache (depFoo, false) = none
    ∧ lookupA ((query cfgW regW st0 depFoo false).1).registryCache (rdepW, false)
        = some PollV.pending := by
  decide

/-- Witness for (amended) C1 at the concrete pending-replacement scenario. -/
theorem claim_c1_witness :
    query cfgW regW st0 depFoo false
      = ({ st0 with registryCache := insertA st0.registryCache (rdepW, false) PollV.pending },
         QueryResult.pending)
    ∧ lookupA ((query cfgW regW st0 depFoo false).1).registryCache (rdepW, false)
        = some PollV.pending
    ∧ lookupA ((query cfgW regW st0 depFoo false).1).registryCache (depFoo, false) = none :=
  have h := claim_c1 cfgW regW st0 depFoo false [sFoo] [] [] sFoo specW rdepW [] st0
    (by decide) (by decide) (by decide) (by decide) (by decide) (by decide)
  ⟨h.1, h.2.1, h.2.2 (by decide)⟩

/-- Claim C3: for a candidate matched by a replacement rule (reached by the
loop), a replacement query yielding zero summaries produces the
"no matching package for override" error; more than one summary produces
the "matched multiple packages" error; and with exactly one summary passing
the assertions, a second matching rule produces the overlapping
specifications error naming both specs. -/
theorem claim_c3 (cfg : Config) (reg : Dependency → RegAnswer) (st : QState)
    (dep : Dependency) (fm : Bool) (raw pre post : List Summary) (s2 : Summary)
    (spec : PackageIdSpec) (rdep : Dependency) (more : List (PackageIdSpec × Dependency))
    (st1 : QState)
    (hmiss : lookupA st.registryCache (dep, fm) = none)
    (hreg : reg dep = RegAnswer.ready raw)
    (hsplit : raw.filter (rustOk cfg) = pre ++ s2 :: post)
    (hpre : processLoop cfg reg fm pre st = (st1, LoopOut.ok))
    (hmatch : replacementMatches cfg s2 = (spec, rdep) :: more) :
    (reg rdep = RegAnswer.ready [] →
      query cfg reg st dep fm = (st1, QueryResult.err (QueryErr.noMatching spec rdep)))
    ∧ (∀ r1 r2 rs, reg rdep = RegAnswer.ready (r1 :: r2 :: rs) →
      query cfg reg st dep fm
        = (st1, QueryResult.err
            (QueryErr.multipleMatch spec (r1.pid :: (r2 :: rs).map (fun x => x.pid)))))
    ∧ (∀ r1 spec2 rd2 mrest, reg rdep = RegAnswer.ready [r1] →
      (r1.pid.version == s2.pid.version && r1.pid.name == s2.pid.name) = true →
      more = (spec2, rd2) :: mrest →
      query cfg reg st dep fm
        = (st1, QueryResult.err (QueryErr.overlapping spec spec2 s2.pid))) := by
  refine ⟨?_, ?_, ?_⟩
  · intro h
    simp only [query, hmiss, hreg, hsplit]
    rw [processLoop_append_ok cfg reg fm pre st st1 hpre]
    rw [processLoop_cons_eq]
    simp only [processSummary, hmatch, h]
  · intro r1 r2 rs h
    simp only [query, hmiss, hreg, hsplit]
    rw [processLoop_append_ok cfg reg fm pre st st1 hpre]
    rw [processLoop_cons_eq]
    simp only [processSummary, hmatch, h, List.isEmpty_cons]
    simp
  · intro r1 spec2 rd2 mrest h hassert hmore
    simp only [query, hmiss, hreg, hsplit]
    rw [processLoop_append_ok cfg reg fm pre st st1 hpre]
    rw [processLoop_cons_eq]
    simp only [processSummary, hmatch, h, hmore, hassert, List.isEmpty_nil]
    simp

/-- Witness for C3: the three error scenarios at concrete inputs — an empty
replacement query, a two-summary replacement query, and two overlapping
replacement rules. -/
theorem claim_c3_witness :
    query cfgW regZ st0 depFoo false
      = (st0, QueryResult.err (QueryErr.noMatching specW rdepW))
    ∧ query cfgW regM st0 depFoo false
      = (st0, QueryResult.err (QueryErr.multipleMatch specW [rFoo1.pid, rFoo2.pid]))
    ∧ query cfgO regO st0 depFoo false
      = (st0, QueryResult.err (QueryErr.overlapping specW specW2 sFoo.pid)) :=
  ⟨(claim_c3 cfgW regZ st0 depFoo false [sFoo] [] [] sFoo specW rdepW [] st0
      (by decide) (by decide) (by decide) (by decide) (by decide)).1 (by decide),
   (claim_c3 cfgW regM st0 depFoo false [sFoo] [] [] sFoo specW rdepW [] st0
      (by decide) (by decide) (by decide) (by decide) (by decide)).2.1 rFoo1 rFoo2 []
      (by decide),
   (claim_c3 cfgO regO st0 depFoo false [sFoo] [] [] sFoo specW rdepW [(specW2, rdepW2)] st0
      (by decide) (by decide) (by decide) (by decide) (by decide)).2.2 rFoo1 specW2 rdepW2 []
      (by decide) (by decide) (by decide)⟩

/-- Claim C10: `query` is not atomic over `used_replacements`.  If an
earlier summary in the candidate list recorded a replacement and a later
summary then fails with an overlapping or multiple-match error, `query`
returns that error with the earlier replacement still recorded and no
registry-cache entry stored under the queried key. -/
theorem claim_c10 (cfg : Config) (reg : Dependency → RegAnswer) (st : QState)
    (dep : Dependency) (fm : Bool) (raw pre post : List Summary) (s2 : Summary)
    (p : PackageId) (r : Summary) (st1 st2 : QState) (e : QueryErr)
    (hmiss : lookupA st.registryCache (dep, fm) = none)
    (hreg : reg dep = RegAnswer.ready raw)
    (hsplit : raw.filter (rustOk cfg) = pre ++ s2 :: post)
    (hpre : processLoop cfg reg fm pre st = (st1, LoopOut.ok))
    (hnew : lookupA st.usedReplacements p = none)
    (hrec : lookupA st1.usedReplacements p = some r)
    (hfail : processSummary cfg reg fm s2 st1 = (st2, StepOut.fail e))
    (hkind : (∃ a b c, e = QueryErr.overlapping a b c)
      ∨ (∃ a pids, e = QueryErr.multipleMatch a pids)) :
    query cfg reg st dep fm = (st2, QueryResult.err e)
    ∧ lookupA ((query cfg reg st dep fm).1).usedReplacements p = some r
    ∧ lookupA ((query cfg reg st dep fm).1).registryCache (dep, fm) = none := by
  have hst2 : st2 = st1 := by
    have h2 := processSummary_fail_state cfg reg fm s2 st1 e (by rw [hfail])
    rw [hfail] at h2
    exact h2
  have hq : query cfg reg st dep fm = (st2, QueryResult.err e) := by
    simp only [query, hmiss, hreg, hsplit]
    rw [processLoop_append_ok cfg reg fm pre st st1 hpre]
    rw [processLoop_cons_eq, hfail]
  refine ⟨hq, ?_, ?_⟩
  · rw [hq]
    subst hst2
    exact hrec
  · rw [hq]
    subst hst2
    show lookupA st2.registryCache (dep, fm) = none
    rw [processLoop_ok_rc cfg reg fm pre st st2 hpre]
    exact hmiss

/-- Witness for C10: querying `both` yields `[sBar, sFoo]`; `sBar`'s
replacement is recorded, then `sFoo`'s replacement query matches multiple
packages; the error is returned with `sBar`'s replacement still recorded
and nothing cached for the queried key. -/
theorem claim_c10_witness :
    query cfgT regT st0 depBoth false
      = (st1T, QueryResult.err (QueryErr.multipleMatch specW [rFoo1.pid, rFoo2.pid]))
    ∧ lookupA ((query cfgT regT st0 depBoth false).1).usedReplacements pidBar = some rBar
    ∧ lookupA ((query cfgT regT st0 depBoth false).1).registryCache (depBoth, false) = none :=
  claim_c10 cfgT regT st0 depBoth false [sBar, sFoo] [sBar] [] sFoo pidBar rBar st1T st1T
    (QueryErr.multipleMatch specW [rFoo1.pid, rFoo2.pid])
    (by decide) (by decide) (by decide) (by decide) (by decide) (by decide) (by decide)
    (Or.inr ⟨specW, [rFoo1.pid, rFoo2.pid], rfl⟩)

/-- Claim C8: memoization.  A `query` call that returns Ready leaves the
result cached, so an immediately following call with the same key returns
the same list and leaves the state untouched; a `build_deps` call that
returns Ok leaves the shared triple cached, so an immediately following call
with the same `(parent, candidate, opts)` key returns the stored triple
unchanged. -/
theorem claim_c8 (cfg : Config) (reg : Dependency → RegAnswer) (st : QState)
    (dep : Dependency) (fm : Bool) (l : List Summary)
    (parent : Option PackageId) (cand : Summary) (opts : ResolveOpts) (fm2 : Bool)
    (out : List String × List DepInfo) :
    ((query cfg reg st dep fm).2 = QueryResult.ready l →
      query cfg reg (query cfg reg st dep fm).1 dep fm
        = ((query cfg reg st dep fm).1, QueryResult.ready l))
    ∧ ((buildDeps cfg reg st parent cand opts fm2).2 = BuildOut.ok out →
      buildDeps cfg reg (buildDeps cfg reg st parent cand opts fm2).1 parent cand opts fm2
        = ((buildDeps cfg reg st parent cand opts fm2).1, BuildOut.ok out)) := by
  constructor
  · intro h
    have hfull : query cfg reg st dep fm = ((query cfg reg st dep fm).1, QueryResult.ready l) := by
      rw [← h]
    have hc := query_ready_cached cfg reg st dep fm _ l hfull
    generalize (query cfg reg st dep fm).1 = st1 at hc ⊢
    simp only [query, hc]
  · intro h
    have hfull : buildDeps cfg reg st parent cand opts fm2
        = ((buildDeps cfg reg st parent cand opts fm2).1, BuildOut.ok out) := by
      rw [← h]
    obtain ⟨b, hc⟩ := buildDeps_ok_cached cfg reg st parent cand opts fm2 _ out hfull
    generalize (buildDeps cfg reg st parent cand opts fm2).1 = st1 at hc ⊢
    simp only [buildDeps, hc]

/-- Witness for C8 on concrete inputs: a registry with two candidates for
`a` and one for `b`, a fresh query and a fresh `build_deps`, each followed
by a second call. -/
theorem claim_c8_witness :
    (query cfg0 regC (query cfg0 regC st0 depA false).1 depA false
      = ((query cfg0 regC st0 depA false).1, QueryResult.ready [sA1, sA2]))
    ∧ (buildDeps cfg0 regC (buildDeps cfg0 regC st0 none candC optsC false).1 none candC optsC false
      = ((buildDeps cfg0 regC st0 none candC optsC false).1,
          BuildOut.ok ([], [(depB, [sB1], []), (depA, [sA1, sA2], [])]))) :=
  ⟨(claim_c8 cfg0 regC st0 depA false [sA1, sA2] none candC optsC false
      ([], [(depB, [sB1], []), (depA, [sA1, sA2], [])])).1 (by decide),
   (claim_c8 cfg0 regC st0 depA false [sA1, sA2] none candC optsC false
      ([], [(depB, [sB1], []), (depA, [sA1, sA2], [])])).2 (by decide)⟩

/-- Claim C2 (amended): in this dependency resolver a weak dep-feature is
still activating.  `require_dep_feature(n, f, weak := true)` records `f`
under `deps[n]` without touching the feature set (it only skips enabling
the implicit feature named `n`), and any optional dependency named in
`reqs.deps` — in particular `n` — is emitted by `resolve_features`: weak
dep-features force-enable the dependency in this resolver (the narrowing
happens in the new feature resolver, not here). -/
theorem claim_c2 (s : Summary) (r : Reqs) (n f : String) (d : Dependency)
    (parent : Option PackageId) (opts : ResolveOpts) (reqs : Reqs)
    (fts : List String) (ret : List (Dependency × List String)) :
    (requireValue s r (FeatureValue.depFeature n f true)
      = Except.ok { r with deps := addDepFeat r.deps n f })
    ∧ (d ∈ s.dependencies → (d.transitive || opts.devDeps) = true →
      buildRequirements parent s opts = Except.ok reqs →
      (lookupA reqs.deps d.nameInToml).isSome = true →
      resolveFeatures parent s opts = Except.ok (fts, ret) →
      d ∈ ret.map Prod.fst) := by
  constructor
  · have hrun : run s
        (potential s r + weight [Task.tval (FeatureValue.depFeature n f true)]) r
        [Task.tval (FeatureValue.depFeature n f true)]
        = RunOut.done (potential s r + 1)
            (Except.ok { r with deps := addDepFeat r.deps n f }) := rfl
    exact expandTasks_done s r _ _ _ hrun
  · intro hd htr hreqs hlk hok
    unfold resolveFeatures at hok
    rw [hreqs] at hok
    dsimp only at hok
    have hdk : d ∈ (s.dependencies.filter (fun d2 => d2.transitive || opts.devDeps)).filter
        (fun d2 => !(d2.optional && (lookupA reqs.deps d2.nameInToml).isNone)) := by
      refine List.mem_filter.mpr ⟨List.mem_filter.mpr ⟨hd, htr⟩, ?_⟩
      obtain ⟨v, hv⟩ := Option.isSome_iff_exists.mp hlk
      simp [hv]
    split at hok
    · split at hok
      · exact absurd hok (by simp)
      · injection hok with h1
        injection h1 with hfts hret
        rw [← hret, List.map_map]
        simpa using hdk
    · injection hok with h1
      injection h1 with hfts hret
      rw [← hret, List.map_map]
      simpa using hdk

/-- Counterexample for C2 as frozen: `sWeak` has the optional dependency
`x` (not otherwise enabled) and the feature `f = [DepFeature{x, fx,
weak=true}]`; expanding the requested feature `f` emits a dependency list
that does include `x`, contradicting the claim that weak dep-features do
not force-enable the dependency here. -/
theorem claim_c2_counterexample :
    resolveFeatures none sWeak optsWeak = Except.ok (["f"], [(depX, ["fx"])])
    ∧ depX.nameInToml = "x" ∧ depX.optional = true := by
  decide

/-- Witness for (amended) C2: the weak dep-feature records `fx` under
`deps["x"]` leaving the feature set empty, and the optional dependency `x`
is emitted. -/
theorem claim_c2_witness :
    requireValue sWeak ⟨[], []⟩ (FeatureValue.depFeature "x" "fx" true)
      = Except.ok ⟨[("x", ["fx"])], []⟩
    ∧ depX ∈ ([(depX, ["fx"])] : List (Dependency × List String)).map Prod.fst :=
  ⟨(claim_c2 sWeak ⟨[], []⟩ "x" "fx" depX none optsWeak ⟨[("x", ["fx"])], ["f"]⟩ ["f"]
      [(depX, ["fx"])]).1,
   (claim_c2 sWeak ⟨[], []⟩ "x" "fx" depX none optsWeak ⟨[("x", ["fx"])], ["f"]⟩ ["f"]
      [(depX, ["fx"])]).2 (by decide) (by decide) (by decide) (by decide) (by decide)⟩

/-- Claim C4 (amended): a requested feature whose definition directly
contains `Feature(f)` never expands successfully; when every value
preceding the first self-reference expands without error, the error is
exactly `Cycle(f)`, which `into_activate_error` turns into a fatal error
regardless of the parent; and cycles among two or more distinct features
are traversed without error and expansion terminates, because each feature
is recorded in the seen set on first visit. -/
theorem claim_c4 (s : Summary) (r : Reqs) (f : String) (fvs pre rest : List FeatureValue) :
    (containsStr r.features f = false → lookupA s.features f = some fvs →
      FeatureValue.feature f ∈ fvs →
      ∀ r1, requireFeature s r f ≠ Except.ok r1)
    ∧ (containsStr r.features f = false → lookupA s.features f = some fvs →
      fvs = pre ++ FeatureValue.feature f :: rest →
      (∃ gp gq r2, run s gp { r with features := f :: r.features } (pre.map (Task.tchk f))
          = RunOut.done gq (Except.ok r2)) →
      requireFeature s r f = Except.error (ReqError.cycle f))
    ∧ (∀ parent, intoActivateError (ReqError.cycle f) parent s
        = ActivateError.fatal (FatalMsg.cyclicFeature f))
    ∧ ((∀ kv ∈ s.features, ∀ fv ∈ kv.2,
          ∃ g, fv = FeatureValue.feature g ∧ g ≠ kv.1 ∧ containsKeyA s.features g = true) →
      ∀ (f2 : String) (r0 : Reqs), containsKeyA s.features f2 = true →
        ∃ r2, requireFeature s r0 f2 = Except.ok r2) := by
  refine ⟨?_, ?_, ?_, ?_⟩
  · intro hc hl hmem r1 hok
    unfold requireFeature at hok
    obtain ⟨g, hrun⟩ := run_of_expandTasks s r [Task.tfeat f]
    rw [hok] at hrun
    rw [show (potential s r + weight [Task.tfeat f]) = potential s r + 1 from rfl] at hrun
    simp only [run] at hrun
    rw [if_neg (by simp [hc]), hl] at hrun
    dsimp only at hrun
    exact run_selfchk s f _ _ _
      (List.mem_append_left _ (List.mem_map.mpr ⟨_, hmem, rfl⟩)) g r1 hrun
  · intro hc hl hfvs hpre
    obtain ⟨gp, gq, r2, hpre⟩ := hpre
    have hng := runNoGas s (potential s r + 1) r [Task.tfeat f] (Nat.le_refl _)
    have hstep : run s (potential s r + 1) r [Task.tfeat f]
        = run s (potential s r) { r with features := f :: r.features }
            (fvs.map (Task.tchk f) ++ []) := by
      simp only [run]
      rw [if_neg (by simp [hc]), hl]
    rw [List.append_nil, hfvs, List.map_append, List.map_cons] at hstep
    cases hA : run s (potential s r) { r with features := f :: r.features }
        (pre.map (Task.tchk f)) with
    | gasOut =>
      exfalso
      have hgas := run_append_gas s
        (Task.tchk f (FeatureValue.feature f) :: rest.map (Task.tchk f))
        (potential s r) { r with features := f :: r.features } (pre.map (Task.tchk f)) hA
      exact hng (hstep.trans hgas)
    | done gA xA =>
      have hxA : xA = Except.ok r2 :=
        run_done_unique s _ _ _ _ _ _ _ _ hA hpre
      subst hxA
      have happ := run_append_ok s
        (Task.tchk f (FeatureValue.feature f) :: rest.map (Task.tchk f))
        (potential s r) { r with features := f :: r.features } (pre.map (Task.tchk f)) gA r2 hA
      cases gA with
      | zero =>
        exfalso
        apply hng
        rw [hstep, happ]
        rfl
      | succ gA2 =>
        have hcyc : run s (gA2 + 1) r2
            (Task.tchk f (FeatureValue.feature f) :: rest.map (Task.tchk f))
            = RunOut.done gA2 (Except.error (ReqError.cycle f)) := by
          simp only [run]
          rw [if_pos (by simp)]
        unfold requireFeature
        refine expandTasks_done s r [Task.tfeat f] gA2 _ ?_
        show run s (potential s r + 1) r [Task.tfeat f]
          = RunOut.done gA2 (Except.error (ReqError.cycle f))
        rw [hstep, happ]
        exact hcyc
  · intro parent
    rfl
  · intro hall f2 r0 hkey
    obtain ⟨g2, r2, hrun⟩ := run_good s hall
      (potential s r0 + weight [Task.tfeat f2]) r0 [Task.tfeat f2]
      (by
        intro t ht
        rw [List.mem_singleton] at ht
        subst ht
        exact Or.inl ⟨f2, rfl, hkey⟩)
      (Nat.le_refl _)
    refine ⟨r2, ?_⟩
    unfold requireFeature
    exact expandTasks_done s r0 [Task.tfeat f2] g2 _ hrun

/-- Counterexample for C4 as frozen: `sSelf`'s feature `f` directly lists
`Feature("f")`, yet expansion of the requested feature `f` returns the
missing-feature fatal error for `g` (listed before the self-reference),
not a `Cycle` error. -/
theorem claim_c4_counterexample :
    resolveFeatures none sSelf optsSelf
      = Except.error (ActivateError.fatal (FatalMsg.noFeature ⟨"a", 1, 0⟩ "g"))
    ∧ FeatureValue.feature "f"
        ∈ [FeatureValue.feature "g", FeatureValue.feature "f"]
    ∧ ActivateError.fatal (FatalMsg.noFeature ⟨"a", 1, 0⟩ "g")
        ≠ ActivateError.fatal (FatalMsg.cyclicFeature "f") := by
  decide

/-- Witness for (amended) C4: the self-listing feature of `sSelf` never
expands successfully; the pure self-loop of `sLoop` yields exactly the
`Cycle` error, fatal under both parents; and the two-cycle of `sCyc`
expands successfully. -/
theorem claim_c4_witness :
    (requireFeature sSelf ⟨[], []⟩ "f" ≠ Except.ok ⟨[], []⟩)
    ∧ requireFeature sLoop ⟨[], []⟩ "lp" = Except.error (ReqError.cycle "lp")
    ∧ intoActivateError (ReqError.cycle "lp") (some pidPar) sLoop
        = ActivateError.fatal (FatalMsg.cyclicFeature "lp")
    ∧ intoActivateError (ReqError.cycle "lp") none sLoop
        = ActivateError.fatal (FatalMsg.cyclicFeature "lp")
    ∧ ∃ r2, requireFeature sCyc ⟨[], []⟩ "p" = Except.ok r2 :=
  ⟨(claim_c4 sSelf ⟨[], []⟩ "f" [FeatureValue.feature "g", FeatureValue.feature "f"] [] []).1
      (by decide) (by decide) (by decide) ⟨[], []⟩,
   (claim_c4 sLoop ⟨[], []⟩ "lp" [FeatureValue.feature "lp"] [] []).2.1
      (by decide) (by decide) (by decide) ⟨0, 0, ⟨[], ["lp"]⟩, rfl⟩,
   (claim_c4 sLoop ⟨[], []⟩ "lp" [FeatureValue.feature "lp"] [] []).2.2.1 (some pidPar),
   (claim_c4 sLoop ⟨[], []⟩ "lp" [FeatureValue.feature "lp"] [] []).2.2.1 none,
   (claim_c4 sCyc ⟨[], []⟩ "p" [] [] []).2.2.2
      (by
        intro kv hkv fv hfv
        have hkv2 : kv = ("p", [FeatureValue.feature "q"])
            ∨ kv = ("q", [FeatureValue.feature "p"]) := by
          simpa [sCyc] using hkv
        rcases hkv2 with h2 | h2
        · subst h2
          have hfv2 : fv = FeatureValue.feature "q" := by simpa using hfv
          subst hfv2
          exact ⟨"q", rfl, by decide, by decide⟩
        · subst h2
          have hfv2 : fv = FeatureValue.feature "p" := by simpa using hfv
          subst hfv2
          exact ⟨"p", rfl, by decide, by decide⟩)
      "p" ⟨[], []⟩ (by decide)⟩

/-- Claim C6: every freshly computed Ok `build_deps` result is sorted
non-decreasingly by candidate-list length, and entries of equal
candidate-list length keep the relative order in which the feature expander
emitted them (the filter at each length equals the filter of the pre-sort
collected list). -/
theorem claim_c6 (cfg : Config) (reg : Dependency → RegAnswer) (st : QState)
    (parent : Option PackageId) (cand : Summary) (opts : ResolveOpts) (fm : Bool)
    (fts : List String) (deps : List DepInfo)
    (hmiss : lookupA st.summaryCache (parent, cand, opts) = none)
    (hok : (buildDeps cfg reg st parent cand opts fm).2 = BuildOut.ok (fts, deps)) :
    List.Sorted lenLe deps
    ∧ ∀ n : Nat,
        deps.filter (fun d => d.2.1.length == n)
          = (emittedDeps cfg reg st parent cand opts fm).filter (fun d => d.2.1.length == n) := by
  simp only [buildDeps, hmiss] at hok
  cases hrf : resolveFeatures parent cand opts with
  | error e =>
    rw [hrf] at hok
    simp at hok
  | ok pair =>
    obtain ⟨uf, ds⟩ := pair
    rw [hrf] at hok
    dsimp only at hok
    rcases hcd : collectDeps cfg reg fm st ds with ⟨st1, ar, co⟩
    rw [hcd] at hok
    cases co with
    | fail nm e => simp at hok
    | boom => simp at hok
    | ok collected =>
      simp only at hok
      injection hok with h1
      injection h1 with hu hd
      have hemit : emittedDeps cfg reg st parent cand opts fm = collected := by
        unfold emittedDeps
        rw [hrf]
        dsimp only
        rw [hcd]
      constructor
      · rw [← hd]
        exact List.sorted_insertionSort lenLe collected
      · intro n
        rw [← hd, hemit]
        exact filter_insertionSort_len n collected

/-- Witness for C6 at a concrete `build_deps` with candidate lists of
lengths 2 and 1: the result is sorted ascending, and the single entry of
each length keeps its place. -/
theorem claim_c6_witness :
    List.Sorted lenLe [((depB, [sB1], []) : DepInfo), (depA, [sA1, sA2], [])]
    ∧ ([((depB, [sB1], []) : DepInfo), (depA, [sA1, sA2], [])].filter
          (fun d => d.2.1.length == 1)
        = (emittedDeps cfg0 regC st0 none candC optsC false).filter
            (fun d => d.2.1.length == 1)) :=
  ⟨(claim_c6 cfg0 regC st0 none candC optsC false [] [(depB, [sB1], []), (depA, [sA1, sA2], [])]
      (by decide) (by decide)).1,
   (claim_c6 cfg0 regC st0 none candC optsC false [] [(depB, [sB1], []), (depA, [sA1, sA2], [])]
      (by decide) (by decide)).2 1⟩

/-- Claim C9: the `build_deps` memoization key excludes
`first_minimal_version`.  If an entry is stored under
`(parent, candidate, opts)`, every later call with that key returns the
stored triple for any `first_minimal_version` value and any registry,
without recomputation (the state is unchanged). -/
theorem claim_c9 (cfg : Config) (st : QState) (parent : Option PackageId) (cand : Summary)
    (opts : ResolveOpts) (out : List String × List DepInfo) (b : Bool)
    (h : lookupA st.summaryCache (parent, cand, opts) = some (out, b)) :
    ∀ (fm : Bool) (reg : Dependency → RegAnswer),
      buildDeps cfg reg st parent cand opts fm = (st, BuildOut.ok out) := by
  intro fm reg
  simp only [buildDeps, h]

/-- Witness for C9: a state with a prefilled entry answers under both
`first_minimal_version` values and two different registries, without
touching the state. -/
theorem claim_c9_witness :
    buildDeps cfg0 regW stP none candC optsC true = (stP, BuildOut.ok outP)
    ∧ buildDeps cfg0 regC stP none candC optsC false = (stP, BuildOut.ok outP) :=
  ⟨claim_c9 cfg0 stP none candC optsC outP true (by decide) true regW,
   claim_c9 cfg0 stP none candC optsC outP true (by decide) false regC⟩

/-- Witness for C7 at three concrete summaries: one with an optional
dependency `x`, one with a required dependency `x`, one with no dependency
`x`. -/
theorem claim_c7_witness :
    (intoActivateError (.missingFeature "x") (some pidPar) sOpt
        = .conflict pidPar (.nonImplicitDependencyAsFeature "x")
      ∧ intoActivateError (.missingFeature "x") none sOpt
        = .fatal (.nonImplicitFeature sOpt.pid "x"))
    ∧ (intoActivateError (.missingFeature "x") (some pidPar) sReq
        = .conflict pidPar (.requiredDependencyAsFeature "x")
      ∧ intoActivateError (.missingFeature "x") none sReq
        = .fatal (.requiredAsFeature sReq.pid "x"))
    ∧ (intoActivateError (.missingFeature "x") (some pidPar) sNone
        = .conflict pidPar (.missingFeatures "x")
      ∧ intoActivateError (.missingFeature "x") none sNone
        = .fatal (.noFeature sNone.pid "x")) :=
  ⟨(claim_c7 sOpt "x" pidPar).1 (by decide) (by decide),
   (claim_c7 sReq "x" pidPar).2.1 (by decide) (by decide),
   (claim_c7 sNone "x" pidPar).2.2 (by decide)⟩

end DepCache
